import Mathlib

/-!
Verification of the SNARP silence-removal pipeline (snarp.py).

The Python program is a single-pass generator pipeline:
`chunked_samples` reads fixed-size blocks of frames from the input and
yields `(decoded samples, raw frames)`; `tag_chunks` classifies each
chunk silent/audible from amplitude thresholds (raising `EOFError` on
the first empty chunk); `tag_segments` is the pre/post-roll state
machine with a one-slot `RingBuffer`; `segmenter` groups consecutive
identically tagged chunks (`itertools.groupby`); `remove_silences`
drives the pipeline, writing audible segments to the primary output and
every emitted chunk to the optional bypass output, catching `EOFError`
as clean termination.

The embedding below models each of these as a pure function on lists.
Raised `EOFError` is modelled by truncation: a generator aborted by the
exception has produced exactly the elements before the raise, and none
of the Python generators runs any code after its loop, so the written
outputs coincide with the truncated-list outputs.
-/

namespace Snarp

variable {α β σ : Type}

/-- Python `min(chunk_samples)` over a non-empty list (`tag_chunks`
line 158).  Python raises on an empty list; callers only reach this
after the emptiness check, so the `[]` value is arbitrary. -/
def py_min : List Int → Int
  | [] => 0
  | x :: xs => xs.foldl min x

/-- Python `max(chunk_samples)` over a non-empty list (`tag_chunks`
line 158). -/
def py_max : List Int → Int
  | [] => 0
  | x :: xs => xs.foldl max x

/-- The classification computed by `tag_chunks` (lines 158-160):
`audible = min_ < SILENCE_MIN and SILENCE_MAX < max_`, and
`silence = not audible`.  Returns the `silence` flag. -/
def chunk_silent (smin smax : Int) (samples : List Int) : Bool :=
  !(decide (py_min samples < smin) && decide (smax < py_max samples))

/-- `tag_chunks` (lines 148-164): tags each `(chunk_samples,
chunk_frames)` pair with its silence classification, raising `EOFError`
on the first empty sample list.  The raise is modelled by truncation:
output stops at the first empty chunk. -/
def tag_chunks (smin smax : Int) : List (List Int × α) → List (Bool × List Int × α)
  | [] => []
  | (chunk_samples, chunk_frames) :: rest =>
    if chunk_samples.isEmpty then []
    else (chunk_silent smin smax chunk_samples, chunk_samples, chunk_frames) ::
      tag_chunks smin smax rest

/-- The loop body state of `tag_segments` (lines 114-146).  `pending`
is the `RingBuffer(maxlen=1)` pre-roll buffer (`none` = empty);
`segment_silent` is the running segment tag.  The four cases mirror the
source: on a boundary into audible, flush the buffer tagged audible and
emit the current chunk tagged audible; on a boundary into silent, emit
the current chunk tagged audible (post-roll); on a silent chunk inside
a silent segment, push into the buffer and emit the evicted chunk (if
any) tagged silent; on an audible chunk inside an audible segment, emit
it tagged audible.  When the upstream raises (end of input) the loop is
abandoned: any chunk still in `pending` is not emitted. -/
def tagSegmentsGo : Option α → Bool → List (Bool × σ × α) → List (Bool × α)
  | _, _, [] => []
  | pending, segment_silent, (chunk_silent, _, chunk_frames) :: rest =>
    if chunk_silent != segment_silent then
      if !chunk_silent then
        (match pending with
          | some frames => [(false, frames)]
          | none => []) ++ (false, chunk_frames) :: tagSegmentsGo none chunk_silent rest
      else
        (false, chunk_frames) :: tagSegmentsGo pending chunk_silent rest
    else
      if chunk_silent then
        match pending with
        | some frames => (true, frames) :: tagSegmentsGo (some chunk_frames) segment_silent rest
        | none => tagSegmentsGo (some chunk_frames) segment_silent rest
      else
        (false, chunk_frames) :: tagSegmentsGo pending segment_silent rest

/-- `tag_segments` (lines 114-146): initial state is an empty pre-roll
buffer and `segment_silent = True`. -/
def tag_segments (l : List (Bool × σ × α)) : List (Bool × α) :=
  tagSegmentsGo none true l

/-- Specification-side description of the tagger, stated purely in
terms of each chunk's classification and those of its immediate
neighbors: a chunk is tagged audible exactly when it, the chunk before
it, or the chunk after it is classified audible (pre-roll and
post-roll promotion); `prev` is the classification of the preceding
chunk, `true` (silent) at the start of the stream.  A final chunk that
is silent with a silent predecessor is the one left in the pending
buffer at end of stream and is never emitted. -/
def roll_expect : Bool → List (Bool × σ × α) → List (Bool × α)
  | _, [] => []
  | prev, [(c, _, f)] => if prev && c then [] else [(false, f)]
  | prev, (c, _, f) :: (c2, s2, f2) :: rest =>
    (prev && c && c2, f) :: roll_expect c ((c2, s2, f2) :: rest)

/-- `segmenter` (lines 104-112) is `itertools.groupby` on the tag:
`segmenter_go` carries the current group's tag and its reversed
contents. -/
def segmenter_go (t : Bool) (acc : List α) : List (Bool × α) → List (Bool × List α)
  | [] => [(t, acc.reverse)]
  | (t2, f) :: rest =>
    if t2 == t then segmenter_go t (f :: acc) rest
    else (t, acc.reverse) :: segmenter_go t2 [f] rest

/-- `segmenter` (lines 104-112): group consecutive chunks sharing a
tag into `(tag, frames)` segments. -/
def segmenter : List (Bool × α) → List (Bool × List α)
  | [] => []
  | (t, f) :: rest => segmenter_go t [f] rest

/-- The writing loop of `remove_silences` (lines 302-320): audible
segments go to the primary output, every segment goes to the bypass
output.  Returns `(primary, bypass)` as the ordered lists of written
frame blocks. -/
def write_segments : List (Bool × List α) → List α × List α
  | [] => ([], [])
  | (silent_segment, frames) :: rest =>
    let p := write_segments rest
    if silent_segment then (p.1, frames ++ p.2)
    else (frames ++ p.1, frames ++ p.2)

/-- `remove_silences` (lines 272-328) on an already-chunked input: the
chunk list is the sequence of `(samples, frames)` yields of
`chunked_samples`.  The second component is the bypass output, `none`
when no bypass file is configured.  `EOFError` (and the pending-buffer
discard it causes) is inside `tag_chunks` / `tag_segments`; the
`except` clause makes it clean termination, so the outputs are exactly
the frames written before it. -/
def remove_silences (smin smax : Int) (bypass : Bool)
    (chunks : List (List Int × α)) : List α × Option (List α) :=
  let segs := segmenter (tag_segments (tag_chunks smin smax chunks))
  let out := write_segments segs
  (out.1, if bypass then some out.2 else none)

/-- Little-endian value of a byte list (`struct.unpack` with format
`<`, lines 241-253). -/
def le_val : List Nat → Nat
  | [] => 0
  | b :: rest => b + 256 * le_val rest

/-- Big-endian value of a byte list (`struct.unpack` with format `>`). -/
def be_val (l : List Nat) : Nat :=
  l.foldl (fun acc b => acc * 256 + b) 0

/-- `frame_to_sample` (lines 198-253).  Takes the first channel's
`sample_width` bytes; when `sample_width < 4` it selects the
most-significant byte per the configured endianness, picks a `0xFF` or
`0x00` high pad byte from its sign bit, inserts `0x00` middle padding
of length `4 - sample_width - 1`, and interprets the resulting 4 bytes
per the configured byte order, signed (`<l`, two's complement) or
unsigned (`<L`).  (The source also clears the sign bit in a local
variable `frame_data_MSB` that is never used again; that assignment has
no effect on the result and is omitted.) -/
def frame_to_sample (endian_little signed_data : Bool) (sample_width : Nat)
    (frame : List Nat) : Int :=
  let frame_data := frame.take sample_width
  let padded :=
    if sample_width < 4 then
      let frame_data_MSB : Nat :=
        if endian_little then frame_data.getD (sample_width - 1) 0
        else frame_data.getD 0 0
      let padding_MSB : Nat := if frame_data_MSB &&& 128 ≠ 0 then 255 else 0
      let padding : List Nat := List.replicate (4 - sample_width - 1) 0
      if endian_little then frame_data ++ padding ++ [padding_MSB]
      else padding_MSB :: (padding ++ frame_data)
    else frame_data
  let u : Nat := if endian_little then le_val padded else be_val padded
  if signed_data then (if u < 2 ^ 31 then (u : Int) else (u : Int) - 2 ^ 32)
  else (u : Int)

/-- The decoder as the specification's words describe it, for
comparison with `frame_to_sample`: when the sample is narrower than 4
bytes, *all* remaining high-order bytes are filled with `0xFF` when the
sign bit of the most-significant byte is set, with `0x00` otherwise
(true sign extension), then interpreted per signedness and byte
order. -/
def frame_to_sample_spec (endian_little signed_data : Bool) (sample_width : Nat)
    (frame : List Nat) : Int :=
  let frame_data := frame.take sample_width
  let padded :=
    if sample_width < 4 then
      let msb : Nat :=
        if endian_little then frame_data.getD (sample_width - 1) 0
        else frame_data.getD 0 0
      let fill : Nat := if msb &&& 128 ≠ 0 then 255 else 0
      if endian_little then frame_data ++ List.replicate (4 - sample_width) fill
      else List.replicate (4 - sample_width) fill ++ frame_data
    else frame_data
  let u : Nat := if endian_little then le_val padded else be_val padded
  if signed_data then (if u < 2 ^ 31 then (u : Int) else (u : Int) - 2 ^ 32)
  else (u : Int)

/-- `frames_per_chunk = int(input_wave.getframerate() * chunk_seconds)`
(`chunked_samples`, line 177): Python `int()` truncates toward zero,
which for the nonnegative products arising here is the floor. -/
def frames_per_chunk (frame_rate : Nat) (chunk_seconds : Rat) : Int :=
  Int.floor ((frame_rate : Rat) * chunk_seconds)

/-- Modelled from the spec: the `round(frame_rate *
chunk_duration_seconds)` the specification ascribes to the chunker.
`round` is the Python 2 builtin (round half away from zero), here for
the nonnegative arguments that arise: `floor (x + 1/2)`.  It is not in
the source; the source uses `int()` truncation. -/
def py_round (x : Rat) : Int :=
  Int.floor (x + 1 / 2)

/-- The sequence of non-empty blocks produced by the `readframes` loop
of `chunked_samples` (lines 178-180): each call returns the next
`n` frames, fewer for the final block, and the empty block once the
input is exhausted (the generator itself never stops). -/
def chunk_frames (n : Nat) (l : List β) : List (List β) :=
  if n = 0 then []
  else if h : l.isEmpty then []
  else l.take n :: chunk_frames n (l.drop n)
termination_by l.length
decreasing_by
  simp only [List.length_drop]
  have hne : l ≠ [] := by
    intro hnil
    exact h (by simp [hnil])
  have : 0 < l.length := List.length_pos.mpr hne
  omega

/-- The `i`-th yield of the infinite generator `chunked_samples`
(lines 178-180), frames component: `readframes(n)` returns the next at
most `n` frames, and the empty block on every call after exhaustion —
the generator never raises. -/
def chunked_samples_yield (n : Nat) (l : List β) (i : Nat) : List β :=
  (l.drop (n * i)).take n

/-- `input_is_signed_data` (lines 255-270): the WAVE rule (width 1 byte
is unsigned, wider is signed) unless an explicit override is given. -/
def input_is_signed_data (signedness_override : Option Bool) (sample_width : Nat) : Bool :=
  match signedness_override with
  | none => decide (sample_width > 1)
  | some s => s

/-- An audible-classified chunk at the head is always emitted tagged
audible, and the rest is tagged with `prev = audible`. -/
theorem roll_expect_cons_audible (prev : Bool) (s : σ) (f : α) (l : List (Bool × σ × α)) :
    roll_expect prev ((false, s, f) :: l) = (false, f) :: roll_expect false l := by
  match l with
  | [] => simp [roll_expect]
  | (c2, s2, f2) :: rest => simp [roll_expect]

/-- A silent-classified chunk right after an audible one is emitted
tagged audible (post-roll), and the rest is tagged with
`prev = silent`. -/
theorem roll_expect_cons_postroll (s : σ) (f : α) (l : List (Bool × σ × α)) :
    roll_expect false ((true, s, f) :: l) = (false, f) :: roll_expect true l := by
  match l with
  | [] => simp [roll_expect]
  | (c2, s2, f2) :: rest => simp [roll_expect]

/-- Key characterization of the pre/post-roll state machine: from an
empty pending buffer and running tag `b`, the machine produces exactly
the neighbor-based tagging `roll_expect b`. -/
theorem tagSegmentsGo_eq_roll_expect :
    ∀ (b : Bool) (l : List (Bool × σ × α)), tagSegmentsGo none b l = roll_expect b l
  | b, [] => by cases b <;> rfl
  | b, [(c, s, f)] => by
    cases b <;> cases c <;> simp [tagSegmentsGo, roll_expect]
  | b, (c, s, f) :: (c2, s2, f2) :: rest => by
    have ih1 := tagSegmentsGo_eq_roll_expect c ((c2, s2, f2) :: rest)
    have ih2 := tagSegmentsGo_eq_roll_expect c2 rest
    cases b <;> cases c <;> cases c2 <;>
      simp [tagSegmentsGo, roll_expect, roll_expect_cons_audible,
        roll_expect_cons_postroll] at ih1 ih2 ⊢ <;>
      simp [ih1, ih2]
termination_by _ l => l.length

/-- Every chunk the expected tagging emits tagged silent was itself
classified silent. -/
theorem roll_expect_mem_silent (l : List (Bool × σ × α)) :
    ∀ (prev : Bool) (f : α), (true, f) ∈ roll_expect prev l → ∃ s, (true, s, f) ∈ l := by
  induction l with
  | nil => intro prev f h; simp [roll_expect] at h
  | cons hd tl ih =>
    obtain ⟨c, s, f0⟩ := hd
    intro prev f h
    match tl with
    | [] =>
      simp only [roll_expect] at h
      split at h
      · simp at h
      · simp only [List.mem_singleton, Prod.mk.injEq] at h
        exact absurd h.1 (by simp)
    | (c2, s2, f2) :: rest =>
      simp only [roll_expect, List.mem_cons, Prod.mk.injEq] at h
      rcases h with ⟨htag, hf⟩ | h
      · refine ⟨s, ?_⟩
        have hc : c = true := by
          cases c
          · simp at htag
          · rfl
        subst hc; subst hf
        exact List.mem_cons_self _ _
      · obtain ⟨s3, hs3⟩ := ih c f h
        exact ⟨s3, List.mem_cons_of_mem _ hs3⟩

/-- Every chunk classified audible is emitted by the expected tagging,
tagged audible. -/
theorem roll_expect_mem_audible (l : List (Bool × σ × α)) :
    ∀ (prev : Bool) (s : σ) (f : α), (false, s, f) ∈ l → (false, f) ∈ roll_expect prev l := by
  induction l with
  | nil => intro prev s f h; simp at h
  | cons hd tl ih =>
    obtain ⟨c, s0, f0⟩ := hd
    intro prev s f h
    rcases List.mem_cons.mp h with heq | h2
    · cases heq
      rw [roll_expect_cons_audible]
      exact List.mem_cons_self _ _
    · have hmem := ih c s f h2
      match tl with
      | [] => simp at h2
      | (c2, s2, f2) :: rest =>
        simp only [roll_expect]
        exact List.mem_cons_of_mem _ hmem

/-- Grouping with `segmenter_go` and then writing distributes: the
primary output is the audible-tagged chunks, the bypass output is every
chunk, with the accumulated partial group in front. -/
theorem write_segments_segmenter_go (l : List (Bool × α)) :
    ∀ (t : Bool) (acc : List α),
      write_segments (segmenter_go t acc l) =
        ((if t then [] else acc.reverse) ++ (l.filter fun p => !p.1).map Prod.snd,
          acc.reverse ++ l.map Prod.snd) := by
  induction l with
  | nil =>
    intro t acc
    cases t <;> simp [segmenter_go, write_segments]
  | cons hd tl ih =>
    obtain ⟨t2, f⟩ := hd
    intro t acc
    cases t <;> cases t2 <;>
      simp [segmenter_go, write_segments, ih, List.filter_cons]

/-- Writing the grouped segments writes the audible-tagged chunks to
the primary output and every tagged chunk to the bypass output, in
order. -/
theorem write_segments_segmenter (t : List (Bool × α)) :
    write_segments (segmenter t) =
      ((t.filter fun p => !p.1).map Prod.snd, t.map Prod.snd) := by
  match t with
  | [] => rfl
  | (b, f) :: rest =>
    cases b <;> simp [segmenter, write_segments_segmenter_go, List.filter_cons]

theorem foldl_min_le_init (l : List Int) : ∀ a : Int, l.foldl min a ≤ a := by
  induction l with
  | nil => intro a; simp
  | cons b t ih => intro a; exact le_trans (ih (min a b)) (min_le_left a b)

theorem foldl_min_le_mem (l : List Int) : ∀ (a x : Int), x ∈ l → l.foldl min a ≤ x := by
  induction l with
  | nil => intro a x hx; simp at hx
  | cons b t ih =>
    intro a x hx
    rcases List.mem_cons.mp hx with rfl | hx2
    · exact le_trans (foldl_min_le_init t (min a x)) (min_le_right a x)
    · exact ih (min a b) x hx2

theorem foldl_min_mem (l : List Int) : ∀ a : Int, l.foldl min a = a ∨ l.foldl min a ∈ l := by
  induction l with
  | nil => intro a; left; rfl
  | cons b t ih =>
    intro a
    rcases ih (min a b) with h | h
    · rw [List.foldl_cons, h]
      rcases min_choice a b with hm | hm
      · left; exact hm
      · right; rw [hm]; exact List.mem_cons_self _ _
    · right; rw [List.foldl_cons]; exact List.mem_cons_of_mem _ h

theorem foldl_max_init_le (l : List Int) : ∀ a : Int, a ≤ l.foldl max a := by
  induction l with
  | nil => intro a; simp
  | cons b t ih => intro a; exact le_trans (le_max_left a b) (ih (max a b))

theorem foldl_max_mem_le (l : List Int) : ∀ (a x : Int), x ∈ l → x ≤ l.foldl max a := by
  induction l with
  | nil => intro a x hx; simp at hx
  | cons b t ih =>
    intro a x hx
    rcases List.mem_cons.mp hx with rfl | hx2
    · exact le_trans (le_max_right a x) (foldl_max_init_le t (max a x))
    · exact ih (max a b) x hx2

theorem foldl_max_mem (l : List Int) : ∀ a : Int, l.foldl max a = a ∨ l.foldl max a ∈ l := by
  induction l with
  | nil => intro a; left; rfl
  | cons b t ih =>
    intro a
    rcases ih (max a b) with h | h
    · rw [List.foldl_cons, h]
      rcases max_choice a b with hm | hm
      · left; exact hm
      · right; rw [hm]; exact List.mem_cons_self _ _
    · right; rw [List.foldl_cons]; exact List.mem_cons_of_mem _ h

/-- `py_min` is a lower bound of the list. -/
theorem py_min_le (s : List Int) (x : Int) (hx : x ∈ s) : py_min s ≤ x := by
  match s with
  | [] => simp at hx
  | y :: t =>
    rcases List.mem_cons.mp hx with rfl | hx2
    · exact foldl_min_le_init t x
    · exact foldl_min_le_mem t y x hx2

/-- `py_min` of a non-empty list is attained. -/
theorem py_min_mem (s : List Int) (hs : s ≠ []) : py_min s ∈ s := by
  match s with
  | [] => exact absurd rfl hs
  | y :: t =>
    rcases foldl_min_mem t y with h | h
    · rw [py_min, h]; exact List.mem_cons_self _ _
    · exact List.mem_cons_of_mem _ h

/-- `py_max` is an upper bound of the list. -/
theorem le_py_max (s : List Int) (x : Int) (hx : x ∈ s) : x ≤ py_max s := by
  match s with
  | [] => simp at hx
  | y :: t =>
    rcases List.mem_cons.mp hx with rfl | hx2
    · exact foldl_max_init_le t x
    · exact foldl_max_mem_le t y x hx2

/-- `py_max` of a non-empty list is attained. -/
theorem py_max_mem (s : List Int) (hs : s ≠ []) : py_max s ∈ s := by
  match s with
  | [] => exact absurd rfl hs
  | y :: t =>
    rcases foldl_max_mem t y with h | h
    · rw [py_max, h]; exact List.mem_cons_self _ _
    · exact List.mem_cons_of_mem _ h

/-- Claim C1, counterexample: for ten concrete chunks classified
`[S,S,A,A,A,S,S,S,A,S]` (silent chunks have samples `[125]`, audible
chunks `[100, 140]`, thresholds 120/135, frames numbered 0-9), the
primary output is not the claimed `{1,2,3,4,5,8,9}`: the code also
emits chunk 7, the pre-roll chunk of the audible run starting at 8. -/
theorem spec_C1_counterexample :
    (remove_silences 120 135 true
        [([125], 0), ([125], 1), ([100, 140], 2), ([100, 140], 3), ([100, 140], 4),
         ([125], 5), ([125], 6), ([125], 7), ([100, 140], 8), ([125], (9 : Nat))]).1 ≠
      [1, 2, 3, 4, 5, 8, 9] := by
  decide

/-- Claim C1 (amended): for an input of 10 chunks whose silence
classifications are `[S,S,A,A,A,S,S,S,A,S]`, the pipeline writes to the
primary output exactly the chunks at original positions
`{1,2,3,4,5,7,8,9}` (chunk 7 is the pre-roll of the audible run at 8),
and the configured bypass output receives all 10 chunks in original
order. -/
theorem spec_C1 (smin smax : Int)
    (s0 s1 s2 s3 s4 s5 s6 s7 s8 s9 : List Int) (f0 f1 f2 f3 f4 f5 f6 f7 f8 f9 : α)
    (e0 : s0.isEmpty = false) (e1 : s1.isEmpty = false) (e2 : s2.isEmpty = false)
    (e3 : s3.isEmpty = false) (e4 : s4.isEmpty = false) (e5 : s5.isEmpty = false)
    (e6 : s6.isEmpty = false) (e7 : s7.isEmpty = false) (e8 : s8.isEmpty = false)
    (e9 : s9.isEmpty = false)
    (h0 : chunk_silent smin smax s0 = true) (h1 : chunk_silent smin smax s1 = true)
    (h2 : chunk_silent smin smax s2 = false) (h3 : chunk_silent smin smax s3 = false)
    (h4 : chunk_silent smin smax s4 = false) (h5 : chunk_silent smin smax s5 = true)
    (h6 : chunk_silent smin smax s6 = true) (h7 : chunk_silent smin smax s7 = true)
    (h8 : chunk_silent smin smax s8 = false) (h9 : chunk_silent smin smax s9 = true) :
    remove_silences smin smax true
        [(s0, f0), (s1, f1), (s2, f2), (s3, f3), (s4, f4),
         (s5, f5), (s6, f6), (s7, f7), (s8, f8), (s9, f9)] =
      ([f1, f2, f3, f4, f5, f7, f8, f9],
        some [f0, f1, f2, f3, f4, f5, f6, f7, f8, f9]) := by
  simp [remove_silences, tag_chunks, e0, e1, e2, e3, e4, e5, e6, e7, e8, e9,
    h0, h1, h2, h3, h4, h5, h6, h7, h8, h9, tag_segments, tagSegmentsGo,
    segmenter, segmenter_go, write_segments]

/-- Claim C1, witness: the amended statement at the concrete input of
the counterexample. -/
theorem spec_C1_witness :
    remove_silences 120 135 true
        [([125], 0), ([125], 1), ([100, 140], 2), ([100, 140], 3), ([100, 140], 4),
         ([125], 5), ([125], 6), ([125], 7), ([100, 140], 8), ([125], (9 : Nat))] =
      ([1, 2, 3, 4, 5, 7, 8, 9], some [0, 1, 2, 3, 4, 5, 6, 7, 8, 9]) :=
  spec_C1 120 135 [125] [125] [100, 140] [100, 140] [100, 140] [125] [125] [125]
    [100, 140] [125] 0 1 2 3 4 5 6 7 8 9
    (by decide) (by decide) (by decide) (by decide) (by decide) (by decide)
    (by decide) (by decide) (by decide) (by decide)
    (by decide) (by decide) (by decide) (by decide) (by decide) (by decide)
    (by decide) (by decide) (by decide) (by decide)

/-- Claim C2: the tagger re-tags exactly the silent chunk immediately
before each audible run and the silent chunk immediately after each
audible run as AUDIBLE.  First conjunct: on every classified chunk
sequence the machine's output equals the neighbor-based tagging
`roll_expect` (a chunk is tagged audible exactly when it or one of its
immediate neighbors is classified audible, so never more than one
chunk of pre-roll however long the preceding silent run).  The other
conjuncts are the spec's two concrete instances:
`[S,S,S,A,S] -> [S,S,A,A,A]` and `[S,S,S,S,A] -> [S,S,S,A,A]`. -/
theorem spec_C2 :
    (∀ (σ α : Type) (l : List (Bool × σ × α)), tag_segments l = roll_expect true l)
    ∧ tag_segments
        [(true, 0, 0), (true, 0, 1), (true, 0, 2), (false, 0, 3), (true, 0, (4 : Nat))] =
        [(true, 0), (true, 1), (false, 2), (false, 3), (false, 4)]
    ∧ tag_segments
        [(true, 0, 0), (true, 0, 1), (true, 0, 2), (true, 0, 3), (false, 0, (4 : Nat))] =
        [(true, 0), (true, 1), (true, 2), (false, 3), (false, 4)] :=
  ⟨fun _ _ l => tagSegmentsGo_eq_roll_expect true l, by decide, by decide⟩

/-- Claim C3 (code bug), evaluation at the failing input: a single
silence-classified chunk (samples `[125]`, thresholds 120/135).  The
chunk is read, parked in the pre-roll buffer, and dropped when
`tag_chunks` raises `EOFError`, so the configured bypass output is
empty instead of containing the chunk: the bypass output is not a
faithful copy of the input. -/
theorem spec_C3_bug :
    remove_silences 120 135 true [([125], (0 : Nat))] = ([], some []) := by
  decide

/-- Claim C4 (code bug), evaluation at the failing input: a single
silent-classified chunk held in `pending` at end-of-stream is never
emitted at all — `tag_segments` produces no output for it (the claimed
`(SILENT, chunk)` emission does not happen, so the chunk misses the
bypass output). -/
theorem spec_C4_bug :
    tag_segments [(true, ([125] : List Int), (0 : Nat))] = [] := by
  decide

/-- Claim C9: re-tagging only promotes.  First conjunct: every chunk
emitted tagged SILENT was itself classified silent.  Second conjunct:
every audible-classified chunk is emitted, tagged AUDIBLE.  Third
conjunct: every chunk tagged AUDIBLE reaches the primary output of the
segment-grouping and writing stage. -/
theorem spec_C9 :
    (∀ (σ α : Type) (l : List (Bool × σ × α)) (f : α),
      (true, f) ∈ tag_segments l → ∃ s, (true, s, f) ∈ l)
    ∧ (∀ (σ α : Type) (l : List (Bool × σ × α)) (s : σ) (f : α),
      (false, s, f) ∈ l → (false, f) ∈ tag_segments l)
    ∧ (∀ (α : Type) (t : List (Bool × α)) (f : α),
      (false, f) ∈ t → f ∈ (write_segments (segmenter t)).1) := by
  refine ⟨?_, ?_, ?_⟩
  · intro σ α l f h
    rw [tag_segments, tagSegmentsGo_eq_roll_expect] at h
    exact roll_expect_mem_silent l true f h
  · intro σ α l s f h
    rw [tag_segments, tagSegmentsGo_eq_roll_expect]
    exact roll_expect_mem_audible l true s f h
  · intro α t f h
    rw [write_segments_segmenter]
    refine List.mem_map.mpr ⟨(false, f), ?_, rfl⟩
    exact List.mem_filter.mpr ⟨h, by simp⟩

/-- Claim C6: the classifier is conjunctive.  First conjunct: a chunk
is classified audible (silence flag false) exactly when
`min < silence_min` AND `silence_max < max`.  Second: a non-empty chunk
whose samples all lie within `[silence_min, silence_max]` is silent.
Third: a chunk with one sample below `silence_min` and one above
`silence_max` is audible.  Fourth: a non-empty chunk with no sample
above `silence_max` is silent even if it has samples below
`silence_min` (crossing only one threshold is not enough). -/
theorem spec_C6 :
    (∀ (smin smax : Int) (s : List Int),
      chunk_silent smin smax s = false ↔ (py_min s < smin ∧ smax < py_max s))
    ∧ (∀ (smin smax : Int) (s : List Int), s ≠ [] →
      (∀ x ∈ s, smin ≤ x ∧ x ≤ smax) → chunk_silent smin smax s = true)
    ∧ (∀ (smin smax : Int) (s : List Int) (x y : Int), x ∈ s → y ∈ s →
      x < smin → smax < y → chunk_silent smin smax s = false)
    ∧ (∀ (smin smax : Int) (s : List Int), s ≠ [] →
      (∀ y ∈ s, y ≤ smax) → chunk_silent smin smax s = true) := by
  refine ⟨?_, ?_, ?_, ?_⟩
  · intro smin smax s
    simp [chunk_silent]
  · intro smin smax s hs hbounds
    have hmin : smin ≤ py_min s := (hbounds (py_min s) (py_min_mem s hs)).1
    simp only [chunk_silent, Bool.not_eq_true']
    simp [not_lt.mpr hmin]
  · intro smin smax s x y hx hy hxmin hymax
    have h1 : py_min s < smin := lt_of_le_of_lt (py_min_le s x hx) hxmin
    have h2 : smax < py_max s := lt_of_lt_of_le hymax (le_py_max s y hy)
    simp [chunk_silent, h1, h2]
  · intro smin smax s hs hbound
    have hmax : py_max s ≤ smax := hbound (py_max s) (py_max_mem s hs)
    simp only [chunk_silent, Bool.not_eq_true']
    simp [not_lt.mpr hmax]

/-- Claim C6, witness: the boundary cases at the default thresholds
120/135: all samples at the 8-bit midpoint are silent; a chunk crossing
both thresholds is audible; a chunk only dipping below the low
threshold is silent. -/
theorem spec_C6_witness :
    chunk_silent 120 135 [127] = true
    ∧ chunk_silent 120 135 [100, 140] = false
    ∧ chunk_silent 120 135 [100, 130] = true :=
  ⟨spec_C6.2.1 120 135 [127] (by decide) (by decide),
   spec_C6.2.2.1 120 135 [100, 140] 100 140 (by decide) (by decide) (by decide) (by decide),
   spec_C6.2.2.2 120 135 [100, 130] (by decide) (by decide)⟩

theorem chunk_frames_nil (n : Nat) : chunk_frames n ([] : List β) = [] := by
  rw [chunk_frames]
  simp

/-- Reading with a positive block size concatenates back to the whole
input: the final block is exactly whatever remains. -/
theorem chunk_frames_flatten (n : Nat) (hn : 0 < n) :
    ∀ l : List β, (chunk_frames n l).flatten = l
  | l => by
    by_cases hl : l = []
    · subst hl
      rw [chunk_frames_nil]
      rfl
    · have hne : ¬(n = 0) := by omega
      have hie : l.isEmpty = false := by simp [hl]
      rw [chunk_frames]
      simp only [hne, if_false, hie, Bool.false_eq_true, dite_false]
      rw [List.flatten_cons, chunk_frames_flatten n hn (l.drop n), List.take_append_drop]
termination_by l => l.length
decreasing_by
  show (List.drop n l).length < l.length
  simp only [List.length_drop]
  have : 0 < l.length := List.length_pos.mpr hl
  omega

/-- Every block except possibly the last has exactly `n` frames. -/
theorem chunk_frames_getD (n : Nat) (hn : 0 < n) :
    ∀ (l : List β) (i : Nat), i + 1 < (chunk_frames n l).length →
      ((chunk_frames n l).getD i []).length = n
  | l, i => by
    intro hi
    by_cases hl : l = []
    · subst hl
      rw [chunk_frames_nil] at hi
      simp at hi
    · have hne : ¬(n = 0) := by omega
      have hie : l.isEmpty = false := by simp [hl]
      rw [chunk_frames] at hi ⊢
      simp only [hne, if_false, hie, Bool.false_eq_true, dite_false] at hi ⊢
      match i with
      | 0 =>
        have hrest : chunk_frames n (l.drop n) ≠ [] := by
          intro hnil
          rw [hnil] at hi
          simp at hi
        have hdrop : l.drop n ≠ [] := by
          intro hdnil
          exact hrest (by rw [hdnil, chunk_frames_nil])
        have hlen : n < l.length := by
          by_contra hle
          exact hdrop (List.drop_eq_nil_of_le (by omega))
        simp [List.length_take]
        omega
      | i + 1 =>
        simp only [List.length_cons, Nat.add_lt_add_iff_right] at hi
        simp only [List.getD_cons_succ]
        exact chunk_frames_getD n hn (l.drop n) i hi
termination_by l i => l.length
decreasing_by
  show (List.drop n l).length < l.length
  simp only [List.length_drop]
  have : 0 < l.length := List.length_pos.mpr hl
  omega

/-- Every block is non-empty and holds at most `n` frames. -/
theorem chunk_frames_mem (n : Nat) (hn : 0 < n) :
    ∀ (l : List β) (c : List β), c ∈ chunk_frames n l → c.length ≤ n ∧ c ≠ []
  | l, c => by
    intro hc
    by_cases hl : l = []
    · subst hl
      rw [chunk_frames_nil] at hc
      simp at hc
    · have hne : ¬(n = 0) := by omega
      have hie : l.isEmpty = false := by simp [hl]
      rw [chunk_frames] at hc
      simp only [hne, if_false, hie, Bool.false_eq_true, dite_false] at hc
      rcases List.mem_cons.mp hc with rfl | hc2
      · constructor
        · simp [List.length_take]
        · simp only [ne_eq, List.take_eq_nil_iff]
          push_neg
          exact ⟨by omega, hl⟩
      · exact chunk_frames_mem n hn (l.drop n) c hc2
termination_by l c => l.length
decreasing_by
  show (List.drop n l).length < l.length
  simp only [List.length_drop]
  have : 0 < l.length := List.length_pos.mpr hl
  omega

set_option maxRecDepth 4096 in
/-- For a byte, testing the top bit with `& 0x80` is testing
`128 ≤ b`. -/
theorem land_128 : ∀ b : Nat, b < 256 → (b &&& 128 = 0 ↔ b < 128) := by
  decide

/-- Closed form of `frame_to_sample` for the narrow widths 1, 2, 3:
writing `v` for the first-channel value in the configured byte order
and `msb` for its most-significant byte, the decoded sample is `v` when
the sign bit of `msb` is clear; when it is set, the decoder glues a
single `0xFF` byte above zero middle padding, which adds `0xFF000000`
in the unsigned interpretation and subtracts `0x1000000` in the signed
one.  (True sign extension would instead give `v - 2^(8w)` signed; the
two agree only at `w = 3`.) -/
theorem frame_to_sample_formula (el sg : Bool) (w : Nat) (frame : List Nat)
    (hw : w = 1 ∨ w = 2 ∨ w = 3) (hlen : frame.length = w)
    (hb : ∀ b ∈ frame, b < 256) :
    frame_to_sample el sg w frame =
      if 128 ≤ (if el then frame.getD (w - 1) 0 else frame.getD 0 0) then
        (if sg then ((if el then le_val frame else be_val frame) : Int) - 16777216
         else ((if el then le_val frame else be_val frame) : Int) + 4278190080)
      else ((if el then le_val frame else be_val frame) : Int) := by
  rcases hw with rfl | rfl | rfl
  · obtain ⟨b0, rfl⟩ := List.length_eq_one.mp hlen
    have h0 : b0 < 256 := hb b0 (by simp)
    by_cases hs0 : b0 < 128
    · have hz0 : b0 &&& 128 = 0 := (land_128 b0 h0).mpr hs0
      cases el <;> cases sg <;>
        simp [frame_to_sample, le_val, be_val, hz0, Nat.not_le.mpr hs0] <;>
        (try split_ifs) <;> push_cast <;> omega
    · have hnz0 : ¬b0 &&& 128 = 0 := fun h => hs0 ((land_128 b0 h0).mp h)
      have hge0 : 128 ≤ b0 := Nat.not_lt.mp hs0
      cases el <;> cases sg <;>
        simp [frame_to_sample, le_val, be_val, hnz0, hge0] <;>
        (try split_ifs) <;> push_cast <;> omega
  · obtain ⟨b0, b1, rfl⟩ := List.length_eq_two.mp hlen
    have h0 : b0 < 256 := hb b0 (by simp)
    have h1 : b1 < 256 := hb b1 (by simp)
    by_cases hs0 : b0 < 128 <;> by_cases hs1 : b1 < 128
    · have hz0 : b0 &&& 128 = 0 := (land_128 b0 h0).mpr hs0
      have hz1 : b1 &&& 128 = 0 := (land_128 b1 h1).mpr hs1
      cases el <;> cases sg <;>
        simp [frame_to_sample, le_val, be_val, hz0, hz1,
          Nat.not_le.mpr hs0, Nat.not_le.mpr hs1] <;>
        (try split_ifs) <;> push_cast <;> omega
    · have hz0 : b0 &&& 128 = 0 := (land_128 b0 h0).mpr hs0
      have hnz1 : ¬b1 &&& 128 = 0 := fun h => hs1 ((land_128 b1 h1).mp h)
      have hge1 : 128 ≤ b1 := Nat.not_lt.mp hs1
      cases el <;> cases sg <;>
        simp [frame_to_sample, le_val, be_val, hz0, hnz1,
          Nat.not_le.mpr hs0, hge1] <;>
        (try split_ifs) <;> push_cast <;> omega
    · have hnz0 : ¬b0 &&& 128 = 0 := fun h => hs0 ((land_128 b0 h0).mp h)
      have hge0 : 128 ≤ b0 := Nat.not_lt.mp hs0
      have hz1 : b1 &&& 128 = 0 := (land_128 b1 h1).mpr hs1
      cases el <;> cases sg <;>
        simp [frame_to_sample, le_val, be_val, hnz0, hge0, hz1,
          Nat.not_le.mpr hs1] <;>
        (try split_ifs) <;> push_cast <;> omega
    · have hnz0 : ¬b0 &&& 128 = 0 := fun h => hs0 ((land_128 b0 h0).mp h)
      have hge0 : 128 ≤ b0 := Nat.not_lt.mp hs0
      have hnz1 : ¬b1 &&& 128 = 0 := fun h => hs1 ((land_128 b1 h1).mp h)
      have hge1 : 128 ≤ b1 := Nat.not_lt.mp hs1
      cases el <;> cases sg <;>
        simp [frame_to_sample, le_val, be_val, hnz0, hge0, hnz1, hge1] <;>
        (try split_ifs) <;> push_cast <;> omega
  · obtain ⟨b0, b1, b2, rfl⟩ := List.length_eq_three.mp hlen
    have h0 : b0 < 256 := hb b0 (by simp)
    have h1 : b1 < 256 := hb b1 (by simp)
    have h2 : b2 < 256 := hb b2 (by simp)
    by_cases hs0 : b0 < 128 <;> by_cases hs2 : b2 < 128
    · have hz0 : b0 &&& 128 = 0 := (land_128 b0 h0).mpr hs0
      have hz2 : b2 &&& 128 = 0 := (land_128 b2 h2).mpr hs2
      cases el <;> cases sg <;>
        simp [frame_to_sample, le_val, be_val, hz0, hz2,
          Nat.not_le.mpr hs0, Nat.not_le.mpr hs2] <;>
        (try split_ifs) <;> push_cast <;> omega
    · have hz0 : b0 &&& 128 = 0 := (land_128 b0 h0).mpr hs0
      have hnz2 : ¬b2 &&& 128 = 0 := fun h => hs2 ((land_128 b2 h2).mp h)
      have hge2 : 128 ≤ b2 := Nat.not_lt.mp hs2
      cases el <;> cases sg <;>
        simp [frame_to_sample, le_val, be_val, hz0, hnz2,
          Nat.not_le.mpr hs0, hge2] <;>
        (try split_ifs) <;> push_cast <;> omega
    · have hnz0 : ¬b0 &&& 128 = 0 := fun h => hs0 ((land_128 b0 h0).mp h)
      have hge0 : 128 ≤ b0 := Nat.not_lt.mp hs0
      have hz2 : b2 &&& 128 = 0 := (land_128 b2 h2).mpr hs2
      cases el <;> cases sg <;>
        simp [frame_to_sample, le_val, be_val, hnz0, hge0, hz2,
          Nat.not_le.mpr hs2] <;>
        (try split_ifs) <;> push_cast <;> omega
    · have hnz0 : ¬b0 &&& 128 = 0 := fun h => hs0 ((land_128 b0 h0).mp h)
      have hge0 : 128 ≤ b0 := Nat.not_lt.mp hs0
      have hnz2 : ¬b2 &&& 128 = 0 := fun h => hs2 ((land_128 b2 h2).mp h)
      have hge2 : 128 ≤ b2 := Nat.not_lt.mp hs2
      cases el <;> cases sg <;>
        simp [frame_to_sample, le_val, be_val, hnz0, hge0, hnz2, hge2] <;>
        (try split_ifs) <;> push_cast <;> omega

/-- Claim C5, counterexample: for the 1-byte frame `0x80` (little
endian, unsigned — the 8-bit WAVE default), the code produces
`0xFF000080` = 4278190208, whereas filling *all* remaining high-order
bytes with ones as the claim states (`frame_to_sample_spec`) would give
`0xFFFFFF80` = 4294967168: the code zero-pads the middle bytes and puts
`0xFF` only in the topmost byte. -/
theorem spec_C5_counterexample :
    frame_to_sample true false 1 [128] = 4278190208
    ∧ frame_to_sample_spec true false 1 [128] = 4294967168
    ∧ frame_to_sample true false 1 [128] ≠ frame_to_sample_spec true false 1 [128] :=
  ⟨by decide, by decide, by decide⟩

/-- Claim C5 (amended): for sample widths 1, 2, 3 the decoder inspects
the most-significant byte per the configured endianness; when its sign
bit is set it fills only the single topmost byte of the 4-byte buffer
with `0xFF` and the middle padding with `0x00` (not all high-order
bytes), then interprets per the resolved signedness and byte order.
Consequently, writing `v` for the first channel's value in the
configured byte order, the decoded sample is `v` when the sign bit is
clear, and otherwise `v + 0xFF000000` unsigned or `v - 0x1000000`
signed. -/
theorem spec_C5 (el sg : Bool) (w : Nat) (frame : List Nat)
    (hw : w = 1 ∨ w = 2 ∨ w = 3) (hlen : frame.length = w)
    (hb : ∀ b ∈ frame, b < 256) :
    frame_to_sample el sg w frame =
      if 128 ≤ (if el then frame.getD (w - 1) 0 else frame.getD 0 0) then
        (if sg then ((if el then le_val frame else be_val frame) : Int) - 16777216
         else ((if el then le_val frame else be_val frame) : Int) + 4278190080)
      else ((if el then le_val frame else be_val frame) : Int) :=
  frame_to_sample_formula el sg w frame hw hlen hb

/-- Claim C5, witness: a 2-byte little-endian signed frame with the
sign bit set decodes to its raw value minus `0x1000000`. -/
theorem spec_C5_witness :
    frame_to_sample true true 2 [0, 128] = 32768 - 16777216 := by
  have h := spec_C5 true true 2 [0, 128] (Or.inr (Or.inl rfl)) rfl (by decide)
  simpa [le_val] using h

/-- Claim C10: for 1-byte unsigned little-endian input the decoder
maps byte `v` to `v` when `v < 128` and to `0xFF000000 + v` when
`v >= 128`, so no decoded sample ever lies in `[128, 255]` — even
though the default thresholds 120 and 135 live in the unsigned 8-bit
domain. -/
theorem spec_C10 :
    ∀ v : Nat, v < 256 →
      (frame_to_sample true false 1 [v] = if v < 128 then (v : Int) else 4278190080 + v)
      ∧ ¬(128 ≤ frame_to_sample true false 1 [v]
          ∧ frame_to_sample true false 1 [v] ≤ 255) := by
  intro v hv
  have h := frame_to_sample_formula true false 1 [v] (Or.inl rfl) rfl
    (by intro b hbm; simp at hbm; omega)
  simp [le_val] at h
  constructor
  · rw [h]
    split_ifs <;> push_cast <;> omega
  · rw [h]
    split_ifs <;> push_cast <;> omega

/-- Claim C10, witness: byte 130 decodes to 4278190210, far outside
`[128, 255]`. -/
theorem spec_C10_witness :
    frame_to_sample true false 1 [130] = 4278190210
    ∧ ¬(128 ≤ frame_to_sample true false 1 [130]
        ∧ frame_to_sample true false 1 [130] ≤ 255) :=
  ⟨by
    have h := (spec_C10 130 (by decide)).1
    simpa using h,
   (spec_C10 130 (by decide)).2⟩

/-- `tag_chunks` stops at the first empty chunk: everything at or after
it (the chunker's padding after exhaustion) is discarded by the raised
`EOFError`, and the preceding chunks are processed normally. -/
theorem tag_chunks_stops_at_empty (smin smax : Int) :
    ∀ (good : List (List Int × α)) (junk : α) (rest : List (List Int × α)),
      (∀ c ∈ good, c.1.isEmpty = false) →
      tag_chunks smin smax (good ++ ([], junk) :: rest) = tag_chunks smin smax good := by
  intro good
  induction good with
  | nil =>
    intro junk rest h
    simp [tag_chunks]
  | cons hd tl ih =>
    intro junk rest h
    obtain ⟨s, f⟩ := hd
    have hs : s.isEmpty = false := h (s, f) (List.mem_cons_self _ _)
    have hih := ih junk rest (fun c hc => h c (List.mem_cons_of_mem _ hc))
    simp [tag_chunks, hs, hih]

/-- Claim C7, counterexample: Python `int()` truncation is not
`round`: at frame rate 3 and chunk duration 0.5 s (both products
exactly representable) the code computes `int(1.5) = 1` frames per
chunk while the claimed `round(1.5) = 2`. -/
theorem spec_C7_counterexample :
    frames_per_chunk 3 (1 / 2) = 1 ∧ py_round ((3 : Rat) * (1 / 2)) = 2
    ∧ (1 : Int) ≠ 2 := by
  refine ⟨?_, ?_, by decide⟩
  · rw [frames_per_chunk, Int.floor_eq_iff]
    norm_num
  · rw [py_round, Int.floor_eq_iff]
    norm_num

/-- Claim C7 (amended): the chunk size in frames is
`int(frame_rate * chunk_seconds)`, i.e. truncation rather than
rounding; it agrees with `round` whenever the product is an integer
(in particular for the fixed 1.0-second chunk duration the code uses).
The size is constant for the whole run except the final chunk, which
holds whatever remains: every non-final block has exactly the chunk
size, every block is non-empty with at most the chunk size, and the
blocks concatenate back to the input. -/
theorem spec_C7 :
    (∀ (rate : Nat) (q : Rat) (n : Int), (rate : Rat) * q = (n : Rat) →
      frames_per_chunk rate q = n ∧ py_round ((rate : Rat) * q) = n)
    ∧ (∀ (β : Type) (n : Nat), 0 < n → ∀ l : List β,
      (∀ i, i + 1 < (chunk_frames n l).length →
        ((chunk_frames n l).getD i []).length = n)
      ∧ (∀ c ∈ chunk_frames n l, c.length ≤ n ∧ c ≠ [])
      ∧ (chunk_frames n l).flatten = l) := by
  constructor
  · intro rate q n h
    constructor
    · rw [frames_per_chunk, h, Int.floor_intCast]
    · rw [py_round, h, Int.floor_int_add]
      norm_num
  · intro β n hn l
    exact ⟨fun i hi => chunk_frames_getD n hn l i hi,
      fun c hc => chunk_frames_mem n hn l c hc,
      chunk_frames_flatten n hn l⟩

/-- Claim C7, witness: at the default 1.0-second duration and rate 5
the chunk size is 5 (truncation agrees with rounding), and chunking
`[0,1,2]` with size 2 gives a full first block and the remainder. -/
theorem spec_C7_witness :
    frames_per_chunk 5 1 = 5 ∧ py_round ((5 : Rat) * 1) = 5
    ∧ ((chunk_frames 2 [0, 1, 2]).getD 0 []).length = 2
    ∧ (chunk_frames 2 [(0 : Nat), 1, 2]).flatten = [0, 1, 2] :=
  ⟨(spec_C7.1 5 1 5 (by norm_num)).1,
   (spec_C7.1 5 1 5 (by norm_num)).2,
   (spec_C7.2 Nat 2 (by norm_num) [0, 1, 2]).1 0 (by
      have h := (spec_C7.2 Nat 2 (by norm_num) [0, 1, 2]).2.2
      simp [chunk_frames, chunk_frames_nil]),
   (spec_C7.2 Nat 2 (by norm_num) [0, 1, 2]).2.2⟩

/-- Claim C8, counterexample: the chunker raises nothing — after the
input (here a single frame read with block size 1) is exhausted, the
next `readframes` call yields the empty block, so the chunker does
emit an empty chunk. -/
theorem spec_C8_counterexample :
    chunked_samples_yield 1 [(0 : Nat)] 1 = [] ∧ chunked_samples_yield 1 [(0 : Nat)] 0 = [0] := by
  constructor <;> rfl

/-- Claim C8 (amended): the chunker signals nothing itself — it yields
an empty chunk once the input is exhausted; it is the classifier
`tag_chunks` that raises `EOFError` on the first empty chunk, so no
chunk at or past end of input reaches the tagger, and `remove_silences`
treats the `EOFError` as clean termination: the pipeline's outputs on
a stream with trailing empty chunks equal its outputs on the true
chunks alone. -/
theorem spec_C8 :
    ∀ (α : Type) (smin smax : Int) (b : Bool) (good : List (List Int × α)) (junk : α)
      (rest : List (List Int × α)), (∀ c ∈ good, c.1.isEmpty = false) →
      tag_chunks smin smax (good ++ ([], junk) :: rest) = tag_chunks smin smax good
      ∧ remove_silences smin smax b (good ++ ([], junk) :: rest) =
          remove_silences smin smax b good := by
  intro α smin smax b good junk rest hgood
  have ht := tag_chunks_stops_at_empty smin smax good junk rest hgood
  exact ⟨ht, by rw [remove_silences, remove_silences, ht]⟩

/-- Claim C8, witness: one audible chunk followed by the chunker's
empty chunk processes exactly like the audible chunk alone. -/
theorem spec_C8_witness :
    tag_chunks 120 135 ([([100, 140], 0)] ++ ([], 1) :: []) =
      tag_chunks 120 135 [([100, 140], (0 : Nat))]
    ∧ remove_silences 120 135 true ([([100, 140], 0)] ++ ([], 1) :: []) =
        remove_silences 120 135 true [([100, 140], (0 : Nat))] :=
  spec_C8 Nat 120 135 true [([100, 140], 0)] 1 [] (by decide)

/-- Claim C9, witness: concrete instances of all three conjuncts. -/
theorem spec_C9_witness :
    (∃ s, (true, s, 5) ∈ [(true, 0, 5), (true, 0, 6), (true, 0, (7 : Nat))])
    ∧ (false, 7) ∈ tag_segments [(true, 0, 5), (false, 0, (7 : Nat))]
    ∧ 7 ∈ (write_segments (segmenter [(true, 5), (false, (7 : Nat))])).1 :=
  ⟨spec_C9.1 Nat Nat [(true, 0, 5), (true, 0, 6), (true, 0, 7)] 5 (by decide),
   spec_C9.2.1 Nat Nat [(true, 0, 5), (false, 0, 7)] 0 7 (by decide),
   spec_C9.2.2 Nat [(true, 5), (false, 7)] 7 (by decide)⟩

end Snarp
